import Mathlib

/-!
Verification development for the quickn-oj source-db storage engine
(`src/db.rs`).  The on-disk state is modelled shallowly: the master file
is a byte list, every dictionary (index) file is its 8-byte header plus
the list of 16-byte entries appended to it, and each `DBFile` method is a
pure function threading this state.

Machine-integer note: `u64`/`u16`/`u8` fields are modelled as `Nat`; the
byte-level codecs truncate with explicit `% 2 ^ w` exactly where the Rust
code serializes them (bincode v1: fixed-width little-endian).  Wraparound
of the in-memory `u64` push counter after `2 ^ 64` push calls is
physically unreachable and is not modelled.  The shift `1u64 << exp`
masks its shift amount in release builds, so the pivot is `2 ^ (exp % 64)`.
-/

namespace SourceDB

instance {ε α : Type} [DecidableEq ε] [DecidableEq α] : DecidableEq (Except ε α) := fun x y =>
  match x, y with
  | .ok a, .ok b =>
    if h : a = b then .isTrue (congrArg Except.ok h)
    else .isFalse (fun hh => h (Except.ok.inj hh))
  | .error a, .error b =>
    if h : a = b then .isTrue (congrArg Except.error h)
    else .isFalse (fun hh => h (Except.error.inj hh))
  | .ok _, .error _ => .isFalse (fun hh => Except.noConfusion hh)
  | .error _, .ok _ => .isFalse (fun hh => Except.noConfusion hh)

/-- Error kinds surfaced to callers.  `notFound`, `unexpectedEof` and
`alreadyExists` are the `std::io::ErrorKind` values the source code
actually produces (`File::open` on a missing file, `read_exact` past the
end of a file, `create_dir` on an existing directory); `corruptRecord` is
the error kind named by the specification's error taxonomy (section 7) and
is never constructed by the code — it is listed so that claims mentioning
it can be stated. -/
inductive DBErr where
  | notFound
  | unexpectedEof
  | alreadyExists
  | corruptRecord
  deriving DecidableEq

/-- `Header` from src/db.rs: `reversion: u16`, `divisor_exp: u8`, `len: u64`. -/
structure Header where
  reversion : Nat
  divisor_exp : Nat
  len : Nat
  deriving DecidableEq

/-- `Block` from src/db.rs: `nth: u64`, `len: u64`; the payload bytes follow. -/
structure Block where
  nth : Nat
  len : Nat
  deriving DecidableEq

/-- `DictionaryHeader` from src/db.rs: `len: u64`. -/
structure DictionaryHeader where
  len : Nat
  deriving DecidableEq

/-- `DictionaryBlock` from src/db.rs: `nth: u64`, `offset: u64`. -/
structure DictionaryBlock where
  nth : Nat
  offset : Nat
  deriving DecidableEq

def QSDB_REVERSION : Nat := 1

def DEFAULT_EXP : Nat := 4

def DEFAULT_HEADER : Header := ⟨QSDB_REVERSION, DEFAULT_EXP, 0⟩

/-- 11 (source keeps this field-name typo). -/
def BYTES_HEDAER : Nat := 11

def BYTES_BLOCK : Nat := 16

def BYTES_DICTIONARY_HEADER : Nat := 8

def BYTES_DICTIONARY_BLOCK : Nat := 16

/-- bincode v1 fixed-width little-endian encoding of a `u16`. -/
def u16LE (n : Nat) : List Nat :=
  [n % 256, n / 256 % 256]

/-- bincode v1 fixed-width little-endian encoding of a `u64`. -/
def u64LE (n : Nat) : List Nat :=
  [n % 256, n / 256 % 256, n / 256 ^ 2 % 256, n / 256 ^ 3 % 256,
   n / 256 ^ 4 % 256, n / 256 ^ 5 % 256, n / 256 ^ 6 % 256, n / 256 ^ 7 % 256]

/-- Little-endian decoding of a byte list. -/
def decodeLE (bs : List Nat) : Nat :=
  bs.foldr (fun b acc => b + 256 * acc) 0

/-- Serialized form of `Header` (11 bytes, as `serialize_into` writes it). -/
def encodeHeader (h : Header) : List Nat :=
  u16LE h.reversion ++ [h.divisor_exp % 256] ++ u64LE h.len

/-- Deserialization of a `Header` from (at least) 11 bytes; bincode's
fixed-width decode is total on an 11-byte buffer, so the source's
`deserialize(..).unwrap()` never panics once `read_exact` succeeded. -/
def decodeHeader (bs : List Nat) : Header :=
  ⟨decodeLE (bs.take 2), bs.getD 2 0, decodeLE ((bs.drop 3).take 8)⟩

/-- Serialized form of `Block` (16 bytes). -/
def encodeBlock (b : Block) : List Nat :=
  u64LE b.nth ++ u64LE b.len

/-- Deserialization of a `Block` from 16 bytes. -/
def decodeBlock (bs : List Nat) : Block :=
  ⟨decodeLE (bs.take 8), decodeLE ((bs.drop 8).take 8)⟩

/-- One dictionary (index) file: its header followed by its appended
entries.  Every write the code performs on a dictionary file either
rewrites the 8-byte header in place or appends one 16-byte entry at the
end, so this structured view is byte-exact. -/
structure DictFile where
  header : DictionaryHeader
  entries : List DictionaryBlock
  deriving DecidableEq

/-- The store's on-disk state rooted at `source_db_root`: the master file
`sources.qsdb` as raw bytes (`none` when absent) and the `dictionary`
directory (`none` when absent) holding files `{n}.qsdd` keyed by `n`. -/
structure FS where
  master : Option (List Nat)
  dictDir : Option (List (Nat × DictFile))
  deriving DecidableEq

/-- Contents of `dictionary/{j}.qsdd`, when the directory and file exist. -/
def lookupDict (fs : FS) (j : Nat) : Option DictFile :=
  fs.dictDir.bind fun l => (l.find? fun p => p.1 == j).map (·.2)

/-- Write (create or overwrite) `dictionary/{j}.qsdd`.  The binding is
prepended; `lookupDict` takes the first match, so this shadows any older
binding for `j`. -/
def setDict (fs : FS) (j : Nat) (f : DictFile) : FS :=
  { fs with dictDir := fs.dictDir.map fun l => (j, f) :: l }

/-- Overwrite `data` into a byte file at offset `off`, keeping bytes
outside the written range and growing the file as needed (the code only
ever writes at offset 0 or at end-of-file). -/
def writeAt (off : Nat) (data old : List Nat) : List Nat :=
  old.take off ++ List.replicate (off - old.length) 0 ++ data ++ old.drop (off + data.length)

/-- `Mode` from src/db.rs. -/
inductive Mode where
  | create
  | modification

/-- `DBFile::inner_read_header`: open the master file, `read_exact` 11
bytes, deserialize. -/
def inner_read_header (fs : FS) : Except DBErr Header :=
  match fs.master with
  | none => .error .notFound
  | some bs =>
    if bs.length < BYTES_HEDAER then .error .unexpectedEof
    else .ok (decodeHeader (bs.take BYTES_HEDAER))

/-- `DBFile::inner_write_header`: in `Create` mode `File::create`
truncates the master file and the 11 header bytes become its whole
content; in `Modification` mode the file is opened for writing (failing
when absent) and the 11 bytes are rewritten in place at offset 0.  The
handle is `sync_all`ed before returning, so a successful call is durable. -/
def inner_write_header (fs : FS) (h : Header) (m : Mode) : Except DBErr FS :=
  match m with
  | .modification =>
    match fs.master with
    | none => .error .notFound
    | some bs => .ok { fs with master := some (writeAt 0 (encodeHeader h) bs) }
  | .create => .ok { fs with master := some (encodeHeader h) }

/-- `DBFile::inner_read_dict_header`: open `dictionary/{j}.qsdd` and read
its 8-byte header. -/
def inner_read_dict_header (j : Nat) (fs : FS) : Except DBErr DictionaryHeader :=
  match lookupDict fs j with
  | none => .error .notFound
  | some f => .ok f.header

/-- `DBFile::inner_write_dict_header`: `Create` truncates (or creates)
the file so it becomes exactly a header with no entries, failing with
`NotFound` when the `dictionary` directory itself is absent;
`Modification` rewrites the 8 header bytes of an existing file in place. -/
def inner_write_dict_header (j : Nat) (fs : FS) (dh : DictionaryHeader) (m : Mode) :
    Except DBErr FS :=
  match m with
  | .modification =>
    match lookupDict fs j with
    | none => .error .notFound
    | some f => .ok (setDict fs j { f with header := dh })
  | .create =>
    match fs.dictDir with
    | none => .error .notFound
    | some _ => .ok (setDict fs j ⟨dh, []⟩)

/-- `DBFile::dict_get`: seek to `8 + 16 * i` in `dictionary/{j}.qsdd` and
`read_exact` one 16-byte entry; reading past the end of the file fails
with `UnexpectedEof`. -/
def dict_get (fs : FS) (j i : Nat) : Except DBErr DictionaryBlock :=
  match lookupDict fs j with
  | none => .error .notFound
  | some f =>
    match f.entries[i]? with
    | some b => .ok b
    | none => .error .unexpectedEof

/-- `DBFile`: the in-memory handle (root path is implicit — one store). -/
structure DBFile where
  header : Header
  fs : FS
  deriving DecidableEq

/-- `DBFile::new`: write a default header (`Create` truncates any
existing master file before the directory check!), then `create_dir` the
`dictionary` directory — this is the only step that can fail with
`AlreadyExists` — then create the root index file `0.qsdd`. -/
def new (fs : FS) (expWrapped : Option Nat) : Except DBErr DBFile × FS :=
  let h : Header :=
    match expWrapped with
    | some e => { DEFAULT_HEADER with divisor_exp := e }
    | none => DEFAULT_HEADER
  match inner_write_header fs h .create with
  | .error e => (.error e, fs)
  | .ok fs1 =>
    match fs1.dictDir with
    | some _ => (.error .alreadyExists, fs1)
    | none =>
      let fs2 : FS := { fs1 with dictDir := some [] }
      match inner_write_dict_header 0 fs2 ⟨0⟩ .create with
      | .error e => (.error e, fs2)
      | .ok fs3 => (.ok ⟨h, fs3⟩, fs3)

/-- `DBFile::open` (`open` is reserved in Lean): read the header back. -/
def openDB (fs : FS) : Except DBErr DBFile :=
  (inner_read_header fs).map fun h => ⟨h, fs⟩

/-- The descent loop of `DBFile::push_dict`, indexed by the exponent `e`
of the current pivot (`pivot = 2 ^ e`), returning the terminating file id
together with the number of descents into child files.  The `e = 0` case
is where the loop's test `current % pivot == 0` holds with `pivot = 1`,
so it terminates at the current file; consequently `pivot >>= 1` is never
executed at `pivot = 1` and the pivot never reaches 0.  Note the loop
continues into `current_block.nth` — the key field of the entry. -/
def descendE (fs : FS) : Nat → Nat → Nat → Except DBErr (Nat × Nat)
  | 0, fid, _ => .ok (fid, 0)
  | e + 1, fid, cur =>
    if cur % 2 ^ (e + 1) = 0 then .ok (fid, 0)
    else
      match dict_get fs fid (cur / 2 ^ (e + 1)) with
      | .error er => .error er
      | .ok blk =>
        match descendE fs e blk.nth (cur % 2 ^ (e + 1)) with
        | .error er => .error er
        | .ok (fid2, d) => .ok (fid2, d + 1)

/-- The same loop written exactly as the unbounded `loop` of the source,
with the pivot as explicit data (`pivot >>= 1` each iteration) and an
explicit fuel; `none` means the fuel ran out with the loop still running.
Termination of the source loop is the theorem that enough fuel always
yields `some`. -/
def descendFuel (fs : FS) : Nat → Nat → Nat → Nat → Option (Except DBErr (Nat × Nat))
  | 0, _, _, _ => none
  | f + 1, fid, cur, pivot =>
    if cur % pivot = 0 then some (.ok (fid, 0))
    else
      match dict_get fs fid (cur / pivot) with
      | .error er => some (.error er)
      | .ok blk =>
        match descendFuel fs f blk.nth (cur % pivot) (pivot / 2) with
        | none => none
        | some (.error er) => some (.error er)
        | some (.ok (fid2, d)) => some (.ok (fid2, d + 1))

/-- The pivot value observed at each execution of the loop's test, for
the same fuelled run. -/
def pivotTrace (fs : FS) : Nat → Nat → Nat → Nat → List Nat
  | 0, _, _, _ => []
  | f + 1, fid, cur, pivot =>
    if cur % pivot = 0 then [pivot]
    else
      match dict_get fs fid (cur / pivot) with
      | .error _ => [pivot]
      | .ok blk => pivot :: pivotTrace fs f blk.nth (cur % pivot) (pivot / 2)

/-- Follows the spec's words for claim C2 (`fileId = entry.value`): the
variant of the descent that continues into the child file identified by
the entry's value (`offset`) field instead of its key (`nth`) field.  To
be compared with `descendE`, which embeds the source. -/
def descendSpecValue (fs : FS) : Nat → Nat → Nat → Except DBErr (Nat × Nat)
  | 0, fid, _ => .ok (fid, 0)
  | e + 1, fid, cur =>
    if cur % 2 ^ (e + 1) = 0 then .ok (fid, 0)
    else
      match dict_get fs fid (cur / 2 ^ (e + 1)) with
      | .error er => .error er
      | .ok blk =>
        match descendSpecValue fs e blk.offset (cur % 2 ^ (e + 1)) with
        | .error er => .error er
        | .ok (fid2, d) => .ok (fid2, d + 1)

/-- Writes performed on the master file, in program order.  A
`writeMaster` event is the durable (`sync_all`ed) in-place header
rewrite done by `inner_write_header`; an `appendMaster` event is a write
at the end of the file (the 16-byte block header, then the payload). -/
inductive Ev where
  | writeMaster (h : Header)
  | appendMaster (bs : List Nat)
  deriving DecidableEq

/-- `DBFile::push_dict idx offset`: descend with pivot
`2 ^ (divisor_exp % 64)` (the `1u64 << exp` shift masks its amount);
at the terminating file read its header, rewrite it with `len + 1`, and
append `DictionaryBlock { nth = idx, offset }` at end-of-file (the source
discards this write's error with `.ok()`); finally create a brand-new
empty index file named `idx`.  Errors propagate, leaving the writes
already performed in place. -/
def push_dict (exp : Nat) (fs : FS) (idx offset : Nat) : Except DBErr Unit × FS :=
  match descendE fs (exp % 64) 0 idx with
  | .error er => (.error er, fs)
  | .ok (fid, _) =>
    match lookupDict fs fid with
    | none => (.error .notFound, fs)
    | some f =>
      let fs2 := setDict fs fid ⟨⟨f.header.len + 1⟩, f.entries ++ [⟨idx, offset⟩]⟩
      match inner_write_dict_header idx fs2 ⟨0⟩ .create with
      | .error er => (.error er, fs2)
      | .ok fs3 => (.ok (), fs3)

/-- Result of one `push` call: the `io::Result<()>` the method returns,
the mutated receiver (`&mut self` keeps the incremented in-memory header
even when the result is an error) together with the resulting disk
state, and the master-file write trace. -/
structure PushOut where
  res : Except DBErr Unit
  db : DBFile
  trace : List Ev
  deriving DecidableEq

/-- `DBFile::push source compress`: increment the in-memory entry count
first, durably rewrite the master header, take the file length as the
record offset, insert into the index forest via `push_dict`, then append
the 16-byte `Block { nth, len = source.len() }` header and the payload
(`enc source` when compression is requested — the compressor itself is
external; note the block header records the uncompressed length).  The
result value on success is `()`. -/
def push (enc : List Nat → List Nat) (db : DBFile) (source : List Nat) (compress : Bool) :
    PushOut :=
  let h2 : Header := { db.header with len := db.header.len + 1 }
  match inner_write_header db.fs h2 .modification with
  | .error er => ⟨.error er, ⟨h2, db.fs⟩, []⟩
  | .ok fs1 =>
    match fs1.master with
    | none => ⟨.error .notFound, ⟨h2, fs1⟩, [.writeMaster h2]⟩
    | some bs1 =>
      let off := bs1.length
      match push_dict h2.divisor_exp fs1 h2.len off with
      | (.error er, fs2) => ⟨.error er, ⟨h2, fs2⟩, [.writeMaster h2]⟩
      | (.ok _, fs2) =>
        let blk : Block := ⟨h2.len, source.length⟩
        let payload := if compress then enc source else source
        match fs2.master with
        | none => ⟨.error .notFound, ⟨h2, fs2⟩, [.writeMaster h2]⟩
        | some bs2 =>
          let bs3 := writeAt off (encodeBlock blk) bs2
          let bs4 := writeAt (off + BYTES_BLOCK) payload bs3
          ⟨.ok (), ⟨h2, { fs2 with master := some bs4 }⟩,
            [.writeMaster h2, .appendMaster (encodeBlock blk), .appendMaster payload]⟩

/-- A sequence of `push` calls on one handle, returning the final handle
and each call's result in order. -/
def pushList (enc : List Nat → List Nat) (db : DBFile) :
    List (List Nat × Bool) → DBFile × List (Except DBErr Unit)
  | [] => (db, [])
  | (s, c) :: rest =>
    let o := push enc db s c
    let p := pushList enc o.db rest
    (p.1, o.res :: p.2)

/-- Modelled from the spec: `get(sequenceNumber, wasCompressed)` is absent
from src/ (only the test in src/lib.rs calls it), so it is built from the
spec's words (sections 4.3 and 4.4): run the same index-forest descent as
insertion, at the terminating file take the leaf entry whose key equals
the target sequence number (`NotFound` when absent), read the
`BlockRecord` at that entry's byte offset — `CorruptRecord` when fewer
bytes are available than declared — and optionally reverse the
compression collaborator `dec`. -/
def get (dec : List Nat → List Nat) (db : DBFile) (s : Nat) (wasCompressed : Bool) :
    Except DBErr (List Nat) :=
  match descendE db.fs (db.header.divisor_exp % 64) 0 s with
  | .error er => .error er
  | .ok (fid, _) =>
    match lookupDict db.fs fid with
    | none => .error .notFound
    | some f =>
      match f.entries.find? (fun b => b.nth == s) with
      | none => .error .notFound
      | some ent =>
        match db.fs.master with
        | none => .error .notFound
        | some bs =>
          if bs.length < ent.offset + BYTES_BLOCK then .error .corruptRecord
          else
            let blk := decodeBlock ((bs.drop ent.offset).take BYTES_BLOCK)
            let payload := (bs.drop (ent.offset + BYTES_BLOCK)).take blk.len
            if payload.length < blk.len then .error .corruptRecord
            else .ok (if wasCompressed then dec payload else payload)

/-- Executable well-formedness of a store: every index entry's key is at
most the number of records pushed so far.  This holds for every store
reachable through the API (each entry's key is the sequence number that
wrote it) and rules out forests whose entries name files from the future. -/
def WFb (db : DBFile) : Prop :=
  match db.fs.dictDir with
  | none => True
  | some l => ∀ p ∈ l, ∀ b ∈ p.2.entries, b.nth ≤ db.header.len

instance (db : DBFile) : Decidable (WFb db) := by
  unfold WFb
  match db.fs.dictDir with
  | none => exact inferInstanceAs (Decidable True)
  | some l => exact inferInstanceAs (Decidable (∀ p ∈ l, ∀ b ∈ p.2.entries, b.nth ≤ db.header.len))

/-- The empty target location. -/
def emptyFS : FS := ⟨none, none⟩

/-- The store `DBFile::new` builds at an empty location with the default
exponent 4. -/
def exDB4 : DBFile :=
  ⟨⟨1, 4, 0⟩, ⟨some (encodeHeader ⟨1, 4, 0⟩), some [(0, ⟨⟨0⟩, []⟩)]⟩⟩

/-- The store `DBFile::new` builds at an empty location with exponent 0
(the one configuration whose descent always terminates immediately). -/
def exDB0 : DBFile :=
  ⟨⟨1, 0, 0⟩, ⟨some (encodeHeader ⟨1, 0, 0⟩), some [(0, ⟨⟨0⟩, []⟩)]⟩⟩

/-- A hand-built forest exercising a four-level descent: each file's
single entry has a key naming the next file and a value (a master-file
byte offset) that names no file at all. -/
def exForest : FS :=
  ⟨some (encodeHeader ⟨1, 4, 0⟩),
   some [(0, ⟨⟨1⟩, [⟨16, 999⟩]⟩), (16, ⟨⟨1⟩, [⟨24, 888⟩]⟩),
         (24, ⟨⟨1⟩, [⟨28, 777⟩]⟩), (28, ⟨⟨1⟩, [⟨30, 666⟩]⟩)]⟩

/-! ## Helper lemmas -/

theorem encodeHeader_length (h : Header) : (encodeHeader h).length = BYTES_HEDAER := rfl

theorem encodeBlock_length (b : Block) : (encodeBlock b).length = BYTES_BLOCK := rfl

theorem writeAt_zero (d old : List Nat) : writeAt 0 d old = d ++ old.drop d.length := by
  simp [writeAt]

theorem writeAt_eof (d old : List Nat) : writeAt old.length d old = old ++ d := by
  simp [writeAt, List.drop_eq_nil_of_le]

theorem decodeLE_u64LE (n : Nat) : decodeLE (u64LE n) = n % 2 ^ 64 := by
  simp only [u64LE, decodeLE, List.foldr]
  omega

theorem decodeHeader_len (h : Header) :
    (decodeHeader (encodeHeader h)).len = h.len % 2 ^ 64 := by
  have hdt : ((encodeHeader h).drop 3).take 8 = u64LE h.len := by
    simp [encodeHeader, u16LE, u64LE]
  show decodeLE (((encodeHeader h).drop 3).take 8) = h.len % 2 ^ 64
  rw [hdt, decodeLE_u64LE]

theorem pow_succ_div_two (e : Nat) : 2 ^ (e + 1) / 2 = 2 ^ e := by
  rw [Nat.pow_succ, Nat.mul_div_cancel]
  exact Nat.zero_lt_two

theorem descend_congr (fs fs2 : FS) (hd : fs.dictDir = fs2.dictDir) :
    ∀ e fid cur, descendE fs e fid cur = descendE fs2 e fid cur := by
  have hg : ∀ j i, dict_get fs j i = dict_get fs2 j i := by
    intro j i
    simp [dict_get, lookupDict, hd]
  intro e
  induction e with
  | zero => intro fid cur; rfl
  | succ e ih =>
    intro fid cur
    by_cases hc : cur % 2 ^ (e + 1) = 0
    · simp only [descendE, if_pos hc]
    · cases hgg : dict_get fs2 fid (cur / 2 ^ (e + 1)) with
      | error er => simp only [descendE, if_neg hc, hg, hgg]
      | ok blk => simp only [descendE, if_neg hc, hg, hgg, ih]

theorem descend_count_le (fs : FS) :
    ∀ e fid cur fid2 d, descendE fs e fid cur = .ok (fid2, d) → d ≤ e := by
  intro e
  induction e with
  | zero =>
    intro fid cur fid2 d h
    simp only [descendE, Except.ok.injEq, Prod.mk.injEq] at h
    omega
  | succ e ih =>
    intro fid cur fid2 d h
    by_cases hc : cur % 2 ^ (e + 1) = 0
    · simp only [descendE, if_pos hc, Except.ok.injEq, Prod.mk.injEq] at h
      omega
    · cases hgg : dict_get fs fid (cur / 2 ^ (e + 1)) with
      | error er =>
        simp only [descendE, if_neg hc, hgg] at h
        exact Except.noConfusion h
      | ok blk =>
        cases hr : descendE fs e blk.nth (cur % 2 ^ (e + 1)) with
        | error er =>
          simp only [descendE, if_neg hc, hgg, hr] at h
          exact Except.noConfusion h
        | ok p =>
          obtain ⟨f3, d3⟩ := p
          have hd3 := ih _ _ _ _ hr
          simp only [descendE, if_neg hc, hgg, hr, Except.ok.injEq, Prod.mk.injEq] at h
          omega

theorem descend_zero (fs : FS) (e fid : Nat) : descendE fs e fid 0 = .ok (fid, 0) := by
  cases e with
  | zero => rfl
  | succ e => simp [descendE]

theorem descendFuel_eq_descendE (fs : FS) :
    ∀ e fid cur, descendFuel fs (e + 1) fid cur (2 ^ e) = some (descendE fs e fid cur) := by
  intro e
  induction e with
  | zero =>
    intro fid cur
    simp [descendFuel, descendE, Nat.mod_one]
  | succ e ih =>
    intro fid cur
    rw [descendFuel, descendE]
    by_cases hc : cur % 2 ^ (e + 1) = 0
    · simp only [if_pos hc]
    · cases hgg : dict_get fs fid (cur / 2 ^ (e + 1)) with
      | error er => simp only [if_neg hc, hgg]
      | ok blk =>
        simp only [if_neg hc, hgg, pow_succ_div_two, ih]
        cases hr : descendE fs e blk.nth (cur % 2 ^ (e + 1)) with
        | error er => rfl
        | ok p =>
          obtain ⟨f3, d3⟩ := p
          rfl

theorem pivotTrace_pos (fs : FS) :
    ∀ e fid cur p, p ∈ pivotTrace fs (e + 1) fid cur (2 ^ e) → 0 < p := by
  intro e
  induction e with
  | zero =>
    intro fid cur p hp
    simp [pivotTrace, Nat.mod_one] at hp
    omega
  | succ e ih =>
    intro fid cur p hp
    by_cases hc : cur % 2 ^ (e + 1) = 0
    · simp only [pivotTrace, if_pos hc, List.mem_singleton] at hp
      subst hp
      exact Nat.pos_pow_of_pos _ Nat.zero_lt_two
    · cases hgg : dict_get fs fid (cur / 2 ^ (e + 1)) with
      | error er =>
        simp only [pivotTrace, if_neg hc, hgg, List.mem_singleton] at hp
        subst hp
        exact Nat.pos_pow_of_pos _ Nat.zero_lt_two
      | ok blk =>
        simp only [pivotTrace, if_neg hc, hgg, pow_succ_div_two, List.mem_cons] at hp
        rcases hp with hp | hp
        · subst hp; exact Nat.pos_pow_of_pos _ Nat.zero_lt_two
        · exact ih _ _ _ hp

theorem lookup_setDict_eq (fs : FS) (j : Nat) (f : DictFile) (l : List (Nat × DictFile))
    (h : fs.dictDir = some l) : lookupDict (setDict fs j f) j = some f := by
  simp [lookupDict, setDict, h]

theorem lookup_setDict_ne (fs : FS) (j j2 : Nat) (f : DictFile) (h : j2 ≠ j) :
    lookupDict (setDict fs j f) j2 = lookupDict fs j2 := by
  cases hd : fs.dictDir with
  | none => simp [lookupDict, setDict, hd]
  | some l =>
    simp [lookupDict, setDict, hd, List.find?_cons, beq_iff_eq, Ne.symm h]

theorem lookupDict_dictDir_some (fs : FS) (j : Nat) (f : DictFile)
    (h : lookupDict fs j = some f) : ∃ l, fs.dictDir = some l := by
  cases hd : fs.dictDir with
  | none => rw [lookupDict, hd] at h; cases h
  | some l => exact ⟨l, rfl⟩

theorem push_dict_ok_elim (exp : Nat) (fs : FS) (idx off : Nat)
    (h : (push_dict exp fs idx off).1 = .ok ()) :
    ∃ l fid d f,
      fs.dictDir = some l ∧
      descendE fs (exp % 64) 0 idx = .ok (fid, d) ∧
      lookupDict fs fid = some f ∧
      push_dict exp fs idx off =
        (.ok (), ⟨fs.master, some ((idx, ⟨⟨0⟩, []⟩) ::
          (fid, ⟨⟨f.header.len + 1⟩, f.entries ++ [⟨idx, off⟩]⟩) :: l)⟩) := by
  cases hd : descendE fs (exp % 64) 0 idx with
  | error er => simp [push_dict, hd] at h
  | ok p =>
    obtain ⟨fid, d⟩ := p
    cases hl : lookupDict fs fid with
    | none => simp [push_dict, hd, hl] at h
    | some f =>
      obtain ⟨l, hdd⟩ := lookupDict_dictDir_some fs fid f hl
      refine ⟨l, fid, d, f, hdd, rfl, hl, ?_⟩
      simp [push_dict, hd, hl, inner_write_dict_header, setDict, hdd]

theorem push_ok_elim (enc : List Nat → List Nat) (db : DBFile) (s : List Nat) (c : Bool)
    (h : (push enc db s c).res = .ok ()) :
    ∃ bs l fid d f,
      db.fs.master = some bs ∧
      db.fs.dictDir = some l ∧
      descendE db.fs (db.header.divisor_exp % 64) 0 (db.header.len + 1) = .ok (fid, d) ∧
      lookupDict db.fs fid = some f ∧
      push enc db s c =
        ⟨.ok (),
         ⟨{ db.header with len := db.header.len + 1 },
          ⟨some (writeAt 0 (encodeHeader { db.header with len := db.header.len + 1 }) bs
              ++ encodeBlock ⟨db.header.len + 1, s.length⟩ ++ (if c then enc s else s)),
           some ((db.header.len + 1, ⟨⟨0⟩, []⟩) ::
             (fid, ⟨⟨f.header.len + 1⟩, f.entries ++
               [⟨db.header.len + 1,
                 (writeAt 0 (encodeHeader { db.header with len := db.header.len + 1 }) bs).length⟩]⟩) :: l)⟩⟩,
         [.writeMaster { db.header with len := db.header.len + 1 },
          .appendMaster (encodeBlock ⟨db.header.len + 1, s.length⟩),
          .appendMaster (if c then enc s else s)]⟩ := by
  cases hm : db.fs.master with
  | none => simp [push, inner_write_header, hm] at h
  | some bs =>
    simp only [push, inner_write_header, hm] at h
    split at h
    · simp at h
    · rename_i a fs2 heq
      split at h
      · simp at h
      · rename_i bs2 hbs2
        have hpd1 : (push_dict db.header.divisor_exp
            ⟨some (writeAt 0 (encodeHeader ⟨db.header.reversion, db.header.divisor_exp, db.header.len + 1⟩) bs),
             db.fs.dictDir⟩ (db.header.len + 1)
            (writeAt 0 (encodeHeader ⟨db.header.reversion, db.header.divisor_exp, db.header.len + 1⟩) bs).length).1
            = .ok () := by rw [heq]
        obtain ⟨l, fid, d, f, hdd1, hdsc, hlk, hpd_eq⟩ := push_dict_ok_elim _ _ _ _ hpd1
        rw [heq] at hpd_eq
        injection hpd_eq with h1 h2
        rw [descend_congr
          ⟨some (writeAt 0 (encodeHeader ⟨db.header.reversion, db.header.divisor_exp, db.header.len + 1⟩) bs),
           db.fs.dictDir⟩ db.fs rfl] at hdsc
        refine ⟨bs, l, fid, d, f, rfl, hdd1, hdsc, hlk, ?_⟩
        simp only [push, inner_write_header, hm, heq]
        rw [h2] at hbs2
        have hbs2eq : bs2 = writeAt 0
            (encodeHeader ⟨db.header.reversion, db.header.divisor_exp, db.header.len + 1⟩) bs := by
          simpa using hbs2.symm
        subst hbs2eq
        rw [h2]
        have hw1 := writeAt_eof
          (encodeBlock ⟨db.header.len + 1, s.length⟩)
          (writeAt 0 (encodeHeader ⟨db.header.reversion, db.header.divisor_exp, db.header.len + 1⟩) bs)
        have hw2 := writeAt_eof (if c then enc s else s)
          (writeAt 0 (encodeHeader ⟨db.header.reversion, db.header.divisor_exp, db.header.len + 1⟩) bs
            ++ encodeBlock ⟨db.header.len + 1, s.length⟩)
        rw [List.length_append, encodeBlock_length] at hw2
        simp [hw1, hw2]

theorem push_len (enc : List Nat → List Nat) (db : DBFile) (s : List Nat) (c : Bool) :
    (push enc db s c).db.header.len = db.header.len + 1 := by
  simp only [push]
  repeat' split
  all_goals rfl

theorem pushList_len (enc : List Nat → List Nat) :
    ∀ l db, (pushList enc db l).1.header.len = db.header.len + l.length := by
  intro l
  induction l with
  | nil => intro db; rfl
  | cons x rest ih =>
    intro db
    cases x with
    | mk s c =>
      simp only [pushList]
      rw [ih, push_len]
      simp only [List.length_cons]
      omega

theorem dict_get_nth_le (fs : FS) (L j i : Nat) (b : DictionaryBlock)
    (hfs : ∀ l, fs.dictDir = some l → ∀ p ∈ l, ∀ bb ∈ p.2.entries, bb.nth ≤ L)
    (h : dict_get fs j i = .ok b) : b.nth ≤ L := by
  cases hl : lookupDict fs j with
  | none => simp [dict_get, hl] at h
  | some f =>
    cases hg : f.entries[i]? with
    | none => simp [dict_get, hl, hg] at h
    | some bb =>
      simp only [dict_get, hl, hg, Except.ok.injEq] at h
      subst h
      obtain ⟨ll, hdd⟩ := lookupDict_dictDir_some fs j f hl
      rw [lookupDict, hdd] at hl
      simp only [Option.some_bind] at hl
      cases hf : ll.find? (fun p => p.1 == j) with
      | none => rw [hf] at hl; cases hl
      | some pr =>
        rw [hf] at hl
        simp at hl
        have hpr := List.mem_of_find?_eq_some hf
        have hbb := List.getElem?_mem hg
        exact hfs ll hdd pr hpr bb (by rw [hl]; exact hbb)

theorem descend_fid_le (fs : FS) (L : Nat)
    (hfs : ∀ l, fs.dictDir = some l → ∀ p ∈ l, ∀ bb ∈ p.2.entries, bb.nth ≤ L) :
    ∀ e fid cur fid2 d, fid ≤ L → descendE fs e fid cur = .ok (fid2, d) → fid2 ≤ L := by
  intro e
  induction e with
  | zero =>
    intro fid cur fid2 d hle h
    simp only [descendE, Except.ok.injEq, Prod.mk.injEq] at h
    omega
  | succ e ih =>
    intro fid cur fid2 d hle h
    by_cases hc : cur % 2 ^ (e + 1) = 0
    · simp only [descendE, if_pos hc, Except.ok.injEq, Prod.mk.injEq] at h
      omega
    · cases hgg : dict_get fs fid (cur / 2 ^ (e + 1)) with
      | error er =>
        simp only [descendE, if_neg hc, hgg] at h
        exact Except.noConfusion h
      | ok blk =>
        cases hr : descendE fs e blk.nth (cur % 2 ^ (e + 1)) with
        | error er =>
          simp only [descendE, if_neg hc, hgg, hr] at h
          exact Except.noConfusion h
        | ok p =>
          obtain ⟨f3, d3⟩ := p
          simp only [descendE, if_neg hc, hgg, hr, Except.ok.injEq, Prod.mk.injEq] at h
          have hble := dict_get_nth_le fs L fid (cur / 2 ^ (e + 1)) blk hfs hgg
          have hf3 := ih blk.nth (cur % 2 ^ (e + 1)) f3 d3 hble hr
          omega

theorem push_persisted_len (enc : List Nat → List Nat) (db : DBFile) (s : List Nat) (c : Bool)
    (h : (push enc db s c).res = .ok ()) :
    (inner_read_header (push enc db s c).db.fs).map Header.len
      = .ok ((db.header.len + 1) % 2 ^ 64) := by
  obtain ⟨bs, l, fid, d, f, hm, hdd, hdsc, hlk, heq⟩ := push_ok_elim enc db s c h
  rw [heq]
  have hB1 : writeAt 0 (encodeHeader { db.header with len := db.header.len + 1 }) bs
      = encodeHeader { db.header with len := db.header.len + 1 } ++ bs.drop BYTES_HEDAER := by
    rw [writeAt_zero, encodeHeader_length]
  simp only [inner_read_header, hB1, List.append_assoc]
  have hlen : ¬ ((encodeHeader { db.header with len := db.header.len + 1 }
      ++ (bs.drop BYTES_HEDAER ++ (encodeBlock ⟨db.header.len + 1, s.length⟩
        ++ (if c then enc s else s)))).length < BYTES_HEDAER) := by
    simp [List.length_append, encodeHeader_length]
  rw [if_neg hlen]
  have htake : (encodeHeader { db.header with len := db.header.len + 1 }
      ++ (bs.drop BYTES_HEDAER ++ (encodeBlock ⟨db.header.len + 1, s.length⟩
        ++ (if c then enc s else s)))).take BYTES_HEDAER
      = encodeHeader { db.header with len := db.header.len + 1 } := by
    rw [← encodeHeader_length { db.header with len := db.header.len + 1 }]
    exact List.take_left _ _
  rw [htake]
  simp [Except.map, decodeHeader_len]
/-! ## Claim theorems -/

/-- C10: every call to `push` increments the in-memory header length by
exactly 1 — even on the failure path that performs no write at all — and
never rolls it back, so a failed push consumes its sequence number and
the immediately following push is assigned the next one. -/
theorem push_always_increments_len (enc : List Nat → List Nat) (db : DBFile)
    (s : List Nat) (c : Bool) (s2 : List Nat) (c2 : Bool) :
    (push enc db s c).db.header.len = db.header.len + 1 ∧
    (push enc (push enc db s c).db s2 c2).db.header.len = db.header.len + 2 := by
  refine ⟨push_len enc db s c, ?_⟩
  rw [push_len, push_len]

/-- C4: within every `push`, the durably written (`sync_all`ed) master
header carrying the incremented entry count is the first master-file
write — every append of block-header or payload bytes happens at a
strictly later position of the write trace. -/
theorem push_header_write_precedes_append (enc : List Nat → List Nat) (db : DBFile)
    (s : List Nat) (c : Bool) :
    ∀ i bs, (push enc db s c).trace[i]? = some (.appendMaster bs) →
      0 < i ∧ (push enc db s c).trace[0]? =
        some (.writeMaster { db.header with len := db.header.len + 1 }) := by
  have htr : (push enc db s c).trace = [] ∨
      (push enc db s c).trace = [.writeMaster { db.header with len := db.header.len + 1 }] ∨
      (push enc db s c).trace =
        [.writeMaster { db.header with len := db.header.len + 1 },
         .appendMaster (encodeBlock ⟨db.header.len + 1, s.length⟩),
         .appendMaster (if c then enc s else s)] := by
    simp only [push]
    split
    · exact Or.inl rfl
    · split
      · exact Or.inr (Or.inl rfl)
      · split
        · exact Or.inr (Or.inl rfl)
        · split
          · exact Or.inr (Or.inl rfl)
          · exact Or.inr (Or.inr rfl)
  intro i bs hi
  rcases htr with h | h | h
  · rw [h] at hi
    simp at hi
  · rw [h] at hi
    cases i with
    | zero => simp at hi
    | succ n => simp at hi
  · rw [h] at hi ⊢
    refine ⟨?_, rfl⟩
    cases i with
    | zero => simp at hi
    | succ n => exact Nat.succ_pos n

/-- Witness for C4 at a concrete input: in the trace of a successful
push the append of the block header sits strictly after the index-0
header write. -/
theorem push_header_write_precedes_append_witness :
    0 < 1 ∧ (push id exDB0 [7] false).trace[0]? = some (.writeMaster ⟨1, 0, 1⟩) :=
  push_header_write_precedes_append id exDB0 [7] false 1 (encodeBlock ⟨1, 1⟩) rfl

/-- C6: for every sequence number (including 0) and every fanout
exponent `e`, the descent loop of `push_dict` terminates within the fuel
`e % 64 + 1` (the pivot is `1u64 << e`, whose shift amount is masked);
when it terminates by the mod-pivot test it has performed at most `e`
descents; a current value of 0 terminates immediately at the current
file; and every pivot value observed by the loop is positive. -/
theorem descent_terminates_bounded (fs : FS) (e cur fid : Nat) :
    (descendFuel fs (e % 64 + 1) fid cur (2 ^ (e % 64))).isSome = true ∧
    (∀ fid2 d, descendFuel fs (e % 64 + 1) fid cur (2 ^ (e % 64)) = some (.ok (fid2, d)) →
      d ≤ e) ∧
    (cur = 0 → descendFuel fs (e % 64 + 1) fid cur (2 ^ (e % 64)) = some (.ok (fid, 0))) ∧
    (∀ p ∈ pivotTrace fs (e % 64 + 1) fid cur (2 ^ (e % 64)), 0 < p) := by
  refine ⟨?_, ?_, ?_, ?_⟩
  · rw [descendFuel_eq_descendE]
    rfl
  · intro fid2 d hd
    rw [descendFuel_eq_descendE] at hd
    have hd2 := Option.some.inj hd
    exact Nat.le_trans (descend_count_le fs (e % 64) fid cur fid2 d hd2) (Nat.mod_le e 64)
  · intro h0
    subst h0
    rw [descendFuel_eq_descendE, descend_zero]
  · exact pivotTrace_pos fs (e % 64) fid cur

/-- Witness for C6 at a concrete input (empty store, exponent 0,
sequence number 0). -/
theorem descent_terminates_bounded_witness :
    descendFuel emptyFS (0 % 64 + 1) 0 0 (2 ^ (0 % 64)) = some (.ok (0, 0)) ∧
    (0 : Nat) ≤ 0 ∧ (0 : Nat) < 2 ^ (0 % 64) :=
  ⟨(descent_terminates_bounded emptyFS 0 0 0).2.2.1 rfl,
   (descent_terminates_bounded emptyFS 0 0 0).2.1 0 0
     ((descent_terminates_bounded emptyFS 0 0 0).2.2.1 rfl),
   (descent_terminates_bounded emptyFS 0 0 0).2.2.2 (2 ^ (0 % 64)) (by decide)⟩

/-- C7 counterexample: `DBFile::new` on a location already containing a
master file (but no dictionary directory) does not fail with
`AlreadyExists` — it truncates the master file and succeeds. -/
theorem create_succeeds_on_master_only_location :
    (new ⟨some [1, 2, 3], none⟩ none).1 =
      .ok ⟨⟨1, 4, 0⟩, ⟨some (encodeHeader ⟨1, 4, 0⟩), some [(0, ⟨⟨0⟩, []⟩)]⟩⟩ := rfl

/-- C7 as amended: `DBFile::new` fails with `AlreadyExists` exactly when
the `dictionary` directory already exists at the target location (the
only `create_dir` step can fail that way); a location containing only a
master file is truncated and creation succeeds. -/
theorem create_fails_when_dictionary_present (fs : FS) (expw : Option Nat)
    (l : List (Nat × DictFile)) (h : fs.dictDir = some l) :
    (new fs expw).1 = .error .alreadyExists := by
  simp [new, inner_write_header, h]

/-- Witness for the amended C7 at a concrete input. -/
theorem create_fails_when_dictionary_present_witness :
    (new ⟨none, some []⟩ none).1 = .error .alreadyExists :=
  create_fails_when_dictionary_present ⟨none, some []⟩ none [] rfl

/-- C8 counterexample: `open` on a location with no master file fails
with the io `NotFound` error, not with `CorruptRecord`. -/
theorem open_absent_master_not_corruptRecord :
    openDB ⟨none, none⟩ = .error .notFound ∧ DBErr.notFound ≠ DBErr.corruptRecord :=
  ⟨rfl, by decide⟩

/-- C8 as amended: `open` always fails when the master header is absent
or truncated, but with the io error kinds the code actually surfaces:
`NotFound` when the master file does not exist, `UnexpectedEof` when it
holds fewer than the 11 header bytes (an 11-byte header always decodes,
so no other malformed case exists). -/
theorem open_fails_absent_or_truncated (fs : FS) :
    (fs.master = none → openDB fs = .error .notFound) ∧
    (∀ bs, fs.master = some bs → bs.length < BYTES_HEDAER →
      openDB fs = .error .unexpectedEof) := by
  constructor
  · intro h
    simp [openDB, inner_read_header, h, Except.map]
  · intro bs h hl
    simp [openDB, inner_read_header, h, hl, Except.map]

/-- Witness for the amended C8 at concrete inputs. -/
theorem open_fails_absent_or_truncated_witness :
    openDB ⟨none, none⟩ = .error .notFound ∧
    openDB ⟨some [1, 2], none⟩ = .error .unexpectedEof :=
  ⟨(open_fails_absent_or_truncated ⟨none, none⟩).1 rfl,
   (open_fails_absent_or_truncated ⟨some [1, 2], none⟩).2 [1, 2] rfl (by decide)⟩

/-- C2 counterexample: in a four-level forest whose entries all carry a
key naming an existing child file and a value naming no file, the
source descent succeeds by following the key (`nth`) field, while the
spec-worded descent (`fileId = entry.value`) fails to find the child. -/
theorem descent_follows_key_counterexample :
    dict_get exForest 0 (1 / 2 ^ 4) = .ok ⟨16, 999⟩ ∧
    descendE exForest 4 0 1 = .ok (30, 4) ∧
    descendSpecValue exForest 4 0 1 = .error .notFound :=
  ⟨rfl, rfl, rfl⟩

/-- C2 as amended: when the descent loop reads a branch entry, it
continues into the child index file identified by that entry's key
(`nth`) field, not its value field. -/
theorem descent_follows_key (fs : FS) (e cur : Nat) (b : DictionaryBlock)
    (hmod : cur % 2 ^ (e + 1) ≠ 0)
    (hget : dict_get fs 0 (cur / 2 ^ (e + 1)) = .ok b) :
    descendE fs (e + 1) 0 cur =
      (descendE fs e b.nth (cur % 2 ^ (e + 1))).map fun p => (p.1, p.2 + 1) := by
  simp only [descendE, if_neg hmod, hget]
  cases hr : descendE fs e b.nth (cur % 2 ^ (e + 1)) with
  | error er => rfl
  | ok p =>
    obtain ⟨f3, d3⟩ := p
    rfl

/-- Witness for the amended C2 at a concrete input. -/
theorem descent_follows_key_witness :
    descendE exForest 4 0 1 =
      (descendE exForest 3 (16 : Nat) (1 % 2 ^ 4)).map fun p => (p.1, p.2 + 1) :=
  descent_follows_key exForest 3 1 ⟨16, 999⟩ (by decide) rfl
theorem inner_write_dict_header_master (j : Nat) (fs : FS) (dh : DictionaryHeader) (m : Mode)
    (fs2 : FS) (h : inner_write_dict_header j fs dh m = .ok fs2) : fs2.master = fs.master := by
  cases m with
  | modification =>
    cases hl : lookupDict fs j with
    | none => simp [inner_write_dict_header, hl] at h
    | some f =>
      simp only [inner_write_dict_header, hl, Except.ok.injEq] at h
      subst h
      simp [setDict]
  | create =>
    cases hdd : fs.dictDir with
    | none => simp [inner_write_dict_header, hdd] at h
    | some l =>
      simp only [inner_write_dict_header, hdd, Except.ok.injEq] at h
      subst h
      simp [setDict]

theorem push_dict_master (exp : Nat) (fs : FS) (idx off : Nat) :
    (push_dict exp fs idx off).2.master = fs.master := by
  simp only [push_dict]
  split
  · rfl
  · split
    · rfl
    · split
      · simp [setDict]
      · rename_i fs3 heq
        rw [inner_write_dict_header_master _ _ _ _ _ heq]
        simp [setDict]

theorem writeAt_zero_length (d old : List Nat) : old.length ≤ (writeAt 0 d old).length := by
  rw [writeAt_zero]
  simp [List.length_append, List.length_drop]
  omega

theorem writeAt_zero_getElem (d old : List Nat) (i : Nat) (h : d.length ≤ i) :
    (writeAt 0 d old)[i]? = old[i]? := by
  rw [writeAt_zero, List.getElem?_append_right h, List.getElem?_drop]
  congr 1
  omega

/-- C9 counterexample: a push rewrites byte 3 of the master file (the
low byte of the persisted entry count) in place, so not every byte
written before the push holds the same value afterwards. -/
theorem push_rewrites_header_byte :
    (exDB0.fs.master.getD [])[3]? = some 0 ∧
    ((push id exDB0 [7] false).db.fs.master.getD [])[3]? = some 1 ∧
    ((push id exDB0 [7] false).db.fs.master.getD [])[3]? ≠ (exDB0.fs.master.getD [])[3]? :=
  ⟨rfl, rfl, by decide⟩

/-- C9 as amended: `push` never shrinks the master file and rewrites no
byte at offsets at or beyond the 11-byte store header; only the header
region (bytes 0 through 10) is rewritten in place, carrying the
incremented entry count. -/
theorem push_master_grows_and_preserves_tail (enc : List Nat → List Nat) (db : DBFile)
    (s : List Nat) (c : Bool) (bs : List Nat) (hm : db.fs.master = some bs) :
    bs.length ≤ ((push enc db s c).db.fs.master.getD []).length ∧
    ∀ i, BYTES_HEDAER ≤ i → i < bs.length →
      ((push enc db s c).db.fs.master.getD [])[i]? = bs[i]? := by
  have hlen1 := writeAt_zero_length
    (encodeHeader { db.header with len := db.header.len + 1 }) bs
  have hget1 : ∀ i, BYTES_HEDAER ≤ i →
      (writeAt 0 (encodeHeader { db.header with len := db.header.len + 1 }) bs)[i]? = bs[i]? := by
    intro i hi
    exact writeAt_zero_getElem _ bs i (by rw [encodeHeader_length]; exact hi)
  simp only [push, inner_write_header, hm]
  split
  · rename_i er fs2 heq
    have hm2 : fs2.master =
        some (writeAt 0 (encodeHeader { db.header with len := db.header.len + 1 }) bs) := by
      rw [show fs2 = (push_dict db.header.divisor_exp
        ⟨some (writeAt 0 (encodeHeader ⟨db.header.reversion, db.header.divisor_exp,
          db.header.len + 1⟩) bs), db.fs.dictDir⟩ (db.header.len + 1)
        (writeAt 0 (encodeHeader ⟨db.header.reversion, db.header.divisor_exp,
          db.header.len + 1⟩) bs).length).2 from (congrArg Prod.snd heq).symm]
      rw [push_dict_master]
    simp only [hm2, Option.getD_some]
    exact ⟨hlen1, fun i hi _ => hget1 i hi⟩
  · rename_i a fs2 heq
    split
    · rename_i hm2
      have hm2b : fs2.master =
          some (writeAt 0 (encodeHeader { db.header with len := db.header.len + 1 }) bs) := by
        rw [show fs2 = (push_dict db.header.divisor_exp
          ⟨some (writeAt 0 (encodeHeader ⟨db.header.reversion, db.header.divisor_exp,
            db.header.len + 1⟩) bs), db.fs.dictDir⟩ (db.header.len + 1)
          (writeAt 0 (encodeHeader ⟨db.header.reversion, db.header.divisor_exp,
            db.header.len + 1⟩) bs).length).2 from (congrArg Prod.snd heq).symm]
        rw [push_dict_master]
      rw [hm2] at hm2b
      exact Option.noConfusion hm2b
    · rename_i bs2 hm2
      have hm2b : fs2.master =
          some (writeAt 0 (encodeHeader { db.header with len := db.header.len + 1 }) bs) := by
        rw [show fs2 = (push_dict db.header.divisor_exp
          ⟨some (writeAt 0 (encodeHeader ⟨db.header.reversion, db.header.divisor_exp,
            db.header.len + 1⟩) bs), db.fs.dictDir⟩ (db.header.len + 1)
          (writeAt 0 (encodeHeader ⟨db.header.reversion, db.header.divisor_exp,
            db.header.len + 1⟩) bs).length).2 from (congrArg Prod.snd heq).symm]
        rw [push_dict_master]
      rw [hm2] at hm2b
      have hbs2 : bs2 = writeAt 0 (encodeHeader { db.header with len := db.header.len + 1 }) bs :=
        Option.some.inj hm2b
      subst hbs2
      have hw1 := writeAt_eof (encodeBlock ⟨db.header.len + 1, s.length⟩)
        (writeAt 0 (encodeHeader { db.header with len := db.header.len + 1 }) bs)
      have hw2 := writeAt_eof (if c then enc s else s)
        (writeAt 0 (encodeHeader { db.header with len := db.header.len + 1 }) bs
          ++ encodeBlock ⟨db.header.len + 1, s.length⟩)
      rw [List.length_append, encodeBlock_length] at hw2
      simp only [hw1, hw2, Option.getD_some]
      constructor
      · calc bs.length ≤ (writeAt 0 (encodeHeader { db.header with len := db.header.len + 1 })
            bs).length := hlen1
          _ ≤ _ := by simp only [List.length_append]; omega
      · intro i hi hilt
        have hiB1 : i < (writeAt 0 (encodeHeader { db.header with len := db.header.len + 1 })
            bs).length := Nat.lt_of_lt_of_le hilt hlen1
        rw [List.getElem?_append_left (Nat.lt_of_lt_of_le hiB1 (by
          simp only [List.length_append]
          omega))]
        rw [List.getElem?_append_left hiB1]
        exact hget1 i hi
/-- Witness for the amended C9 at concrete inputs: the master file never
shrinks, and byte 12 (inside the first block record) survives a second
push unchanged. -/
theorem push_master_grows_and_preserves_tail_witness :
    (encodeHeader ⟨1, 0, 0⟩).length ≤ ((push id exDB0 [7] false).db.fs.master.getD []).length ∧
    ((push id (push id exDB0 [7] false).db [9] false).db.fs.master.getD [])[12]? =
      ((push id exDB0 [7] false).db.fs.master.getD [])[12]? := by
  constructor
  · exact (push_master_grows_and_preserves_tail id exDB0 [7] false
      (encodeHeader ⟨1, 0, 0⟩) rfl).1
  · exact (push_master_grows_and_preserves_tail id (push id exDB0 [7] false).db [9] false
      ((push id exDB0 [7] false).db.fs.master.getD []) rfl).2 12 (by decide) (by decide)

theorem pushList_persisted (enc : List Nat → List Nat) :
    ∀ l db, (∀ r ∈ (pushList enc db l).2, r = .ok ()) →
    (inner_read_header db.fs).map Header.len = .ok (db.header.len % 2 ^ 64) →
    (inner_read_header (pushList enc db l).1.fs).map Header.len
      = .ok ((pushList enc db l).1.header.len % 2 ^ 64) := by
  intro l
  induction l with
  | nil => intro db h hi; exact hi
  | cons x rest ih =>
    intro db h hi
    obtain ⟨s, c⟩ := x
    simp only [pushList] at h ⊢
    have hok1 : (push enc db s c).res = .ok () := h _ (List.mem_cons_self _ _)
    have hrest : ∀ r ∈ (pushList enc (push enc db s c).db rest).2, r = .ok () :=
      fun r hr => h r (List.mem_cons_of_mem _ hr)
    have hper : (inner_read_header (push enc db s c).db.fs).map Header.len
        = .ok ((push enc db s c).db.header.len % 2 ^ 64) := by
      rw [push_len]
      exact push_persisted_len enc db s c hok1
    exact ih (push enc db s c).db hrest hper

/-- C3 counterexample: `push` returns `io::Result<()>` — two pushes that
are assigned the distinct sequence numbers 1 and 2 return the identical
value `Ok(())`, so the assigned sequence number is not returned to the
caller. -/
theorem push_returns_unit_not_sequence_number :
    (push id exDB0 [7] false).res = .ok () ∧
    (push id (push id exDB0 [7] false).db [8] false).res = .ok () ∧
    (push id exDB0 [7] false).db.header.len = 1 ∧
    (push id (push id exDB0 [7] false).db [8] false).db.header.len = 2 ∧
    (push id exDB0 [7] false).res = (push id (push id exDB0 [7] false).db [8] false).res :=
  ⟨rfl, rfl, rfl, rfl, rfl⟩

/-- C3 as amended: starting from a fresh store, the i-th push call is
assigned sequence number i (1-based, in strict call order; the number is
recorded in the handle, not returned), and after `n` all-successful
pushes the persisted store header's entry count equals `n` (for `n`
below the `u64` range). -/
theorem pushes_assign_sequential_numbers_and_persist_count
    (enc : List Nat → List Nat) (db : DBFile) (inputs : List (List Nat × Bool))
    (h0 : db.header.len = 0)
    (hinit : (inner_read_header db.fs).map Header.len = .ok (db.header.len % 2 ^ 64))
    (hok : ∀ r ∈ (pushList enc db inputs).2, r = .ok ())
    (hn : inputs.length < 2 ^ 64) :
    (∀ i, i < inputs.length →
      (pushList enc db (inputs.take i)).1.header.len + 1 = i + 1) ∧
    (pushList enc db inputs).1.header.len = inputs.length ∧
    (inner_read_header (pushList enc db inputs).1.fs).map Header.len = .ok inputs.length := by
  refine ⟨?_, ?_, ?_⟩
  · intro i hi
    rw [pushList_len, h0, List.length_take]
    simp [Nat.min_eq_left (Nat.le_of_lt hi)]
  · rw [pushList_len, h0]
    omega
  · have hfin := pushList_persisted enc inputs db hok hinit
    rw [pushList_len, h0, Nat.zero_add, Nat.mod_eq_of_lt hn] at hfin
    exact hfin

/-- Witness for the amended C3 at a concrete run of two pushes on a
fresh exponent-0 store. -/
theorem pushes_assign_sequential_numbers_witness :
    (pushList id exDB0 [([7], false), ([8, 9], false)]).1.header.len = 2 ∧
    (inner_read_header (pushList id exDB0 [([7], false), ([8, 9], false)]).1.fs).map Header.len
      = .ok 2 ∧
    (pushList id exDB0 ([([7], false), ([8, 9], false)].take 1)).1.header.len + 1 = 1 + 1 := by
  have hth := pushes_assign_sequential_numbers_and_persist_count id exDB0
    [([7], false), ([8, 9], false)] rfl rfl (by decide) (by decide)
  exact ⟨hth.2.1, hth.2.2, hth.1 1 (by decide)⟩
theorem lookupDict_cons (m : Option (List Nat)) (a : Nat × DictFile)
    (l : List (Nat × DictFile)) (j : Nat) :
    lookupDict ⟨m, some (a :: l)⟩ j =
      if a.1 = j then some a.2 else lookupDict ⟨m, some l⟩ j := by
  simp only [lookupDict, Option.some_bind]
  rw [List.find?_cons]
  by_cases h : a.1 = j
  · simp [h]
  · rw [if_neg h, show (a.1 == j) = false from beq_eq_false_iff_ne.mpr h]

/-- C5: every successful push on a well-formed store assigns sequence
number `s = len + 1` and appends exactly one
`IndexEntry{key = s, value = byte offset of the push's BlockRecord
header}` to the index file where the descent terminated, increments that
file's entry count by exactly 1, leaves every other index file
unchanged, and creates a brand-new index file named `s` with entry
count 0. -/
theorem push_appends_one_entry_and_creates_file
    (enc : List Nat → List Nat) (db : DBFile) (s : List Nat) (c : Bool)
    (h : (push enc db s c).res = .ok ()) (hwf : WFb db) :
    ∃ bs fid d f,
      db.fs.master = some bs ∧
      descendE db.fs (db.header.divisor_exp % 64) 0 (db.header.len + 1) = .ok (fid, d) ∧
      lookupDict db.fs fid = some f ∧
      lookupDict (push enc db s c).db.fs fid =
        some ⟨⟨f.header.len + 1⟩, f.entries ++
          [⟨db.header.len + 1,
            (writeAt 0 (encodeHeader { db.header with len := db.header.len + 1 }) bs).length⟩]⟩ ∧
      lookupDict (push enc db s c).db.fs (db.header.len + 1) = some ⟨⟨0⟩, []⟩ ∧
      (∀ j, j ≠ fid → j ≠ db.header.len + 1 →
        lookupDict (push enc db s c).db.fs j = lookupDict db.fs j) ∧
      ∃ bs2, (push enc db s c).db.fs.master = some bs2 ∧
        (bs2.drop (writeAt 0 (encodeHeader { db.header with len := db.header.len + 1 })
          bs).length).take BYTES_BLOCK = encodeBlock ⟨db.header.len + 1, s.length⟩ := by
  obtain ⟨bs, l, fid, d, f, hm, hdd, hdsc, hlk, heq⟩ := push_ok_elim enc db s c h
  have hfs : ∀ ll, db.fs.dictDir = some ll →
      ∀ p ∈ ll, ∀ bb ∈ p.2.entries, bb.nth ≤ db.header.len := by
    intro ll hll p hp bb hbb
    simp only [WFb, hll] at hwf
    exact hwf p hp bb hbb
  have hfid_le : fid ≤ db.header.len :=
    descend_fid_le db.fs db.header.len hfs (db.header.divisor_exp % 64) 0 (db.header.len + 1)
      fid d (Nat.zero_le _) hdsc
  have hfid_ne : fid ≠ db.header.len + 1 := by omega
  refine ⟨bs, fid, d, f, hm, hdsc, hlk, ?_, ?_, ?_, ?_⟩
  · rw [heq]
    rw [lookupDict_cons]
    rw [if_neg (fun hh => hfid_ne hh.symm)]
    rw [lookupDict_cons]
    simp
  · rw [heq]
    rw [lookupDict_cons]
    simp
  · intro j hj1 hj2
    rw [heq]
    rw [lookupDict_cons]
    rw [if_neg (fun hh => hj2 hh.symm)]
    rw [lookupDict_cons]
    rw [if_neg (fun hh => hj1 hh.symm)]
    simp [lookupDict, hdd]
  · rw [heq]
    refine ⟨_, rfl, ?_⟩
    rw [List.append_assoc, List.drop_left]
    rw [← encodeBlock_length ⟨db.header.len + 1, s.length⟩]
    exact List.take_left _ _

/-- Witness for C5 at a concrete input: one push on a fresh exponent-0
store appends the entry `{key 1, value 11}` to the root index file
(whose count becomes 1) and creates the empty index file named 1. -/
theorem push_appends_one_entry_witness :
    lookupDict (push id exDB0 [7] false).db.fs 0 = some ⟨⟨1⟩, [⟨1, 11⟩]⟩ ∧
    lookupDict (push id exDB0 [7] false).db.fs 1 = some ⟨⟨0⟩, []⟩ := by
  obtain ⟨bs, fid, d, f, hm, hdsc, hlk, hterm, hnew, hother, -⟩ :=
    push_appends_one_entry_and_creates_file id exDB0 [7] false rfl (by decide)
  have hm2 := hm
  simp only [exDB0] at hm2
  injection hm2 with hbs
  subst hbs
  have h1 : descendE exDB0.fs (exDB0.header.divisor_exp % 64) 0 (exDB0.header.len + 1)
      = .ok ((0 : Nat), (0 : Nat)) := rfl
  rw [h1] at hdsc
  injection hdsc with hp
  have hfid : fid = 0 := (Prod.mk.injEq _ _ _ _ |>.mp hp.symm).1
  have hd : d = 0 := (Prod.mk.injEq _ _ _ _ |>.mp hp.symm).2
  subst hfid
  have h2 : lookupDict exDB0.fs 0 = some ⟨⟨0⟩, []⟩ := rfl
  rw [h2] at hlk
  injection hlk with hf
  subst hf
  constructor
  · rw [hterm]
    decide
  · exact hnew

/-- C1 (code bug exhibit): on a store freshly created with the default
fanout exponent 4, the very first push fails — its index descent reads
entry 0 of the still-empty root index file and gets `UnexpectedEof` — so
no record is stored and `get 1` fails instead of returning the pushed
bytes.  With exponent 0 (descent terminates immediately) the intended
round trip does hold. -/
theorem push_get_roundtrip_fails_on_default_store :
    (new emptyFS none).1 = .ok exDB4 ∧
    (push id exDB4 [7] false).res = .error .unexpectedEof ∧
    get id (push id exDB4 [7] false).db 1 false = .error .unexpectedEof ∧
    (new emptyFS (some 0)).1 = .ok exDB0 ∧
    get id (push id exDB0 [7, 8] false).db 1 false = .ok [7, 8] :=
  ⟨rfl, rfl, rfl, rfl, rfl⟩
end SourceDB
